import Mathlib

/-!
Shallow embedding of the core of `src/Spec_test/rs_out/ultimate.rs`:
the bounded stack (`stack_new`, `stack_push`, `stack_pop`, `stack_is_empty`)
and the Turing-machine simulator (`tm_new`, `tm_step`, `tm_run`).

Machine integers (`i32`) are modelled as `Int`; every arithmetic operation
performed by the embedded code is guarded far away from the `i32` overflow
boundary, so no wraparound modelling is needed.  A Rust array access
`arr[i as usize]` panics whenever the `i32` index is negative or at least
the array length; where such an access can actually be reached with an
out-of-range index the embedded function returns `Option`, with `none`
standing for the panic.
-/

set_option maxRecDepth 20000

namespace Conduit

/-- Rust enum `TapeSymbol` (`ultimate.rs` lines 158-162). -/
inductive TapeSymbol
  | Zero
  | One
deriving DecidableEq, Repr

/-- Rust enum `State` (`ultimate.rs` lines 164-169). -/
inductive State
  | A
  | B
  | Halt
deriving DecidableEq, Repr

/-- Rust struct `TuringMachine` (`ultimate.rs` lines 171-177).
The Rust field `tape : [TapeSymbol; 100]` becomes a `List TapeSymbol`;
the fixed length 100 is a hypothesis or invariant where it matters. -/
structure TuringMachine where
  tape : List TapeSymbol
  head : Int
  state : State
  steps : Int
deriving DecidableEq, Repr

/-- `tm_new` (`ultimate.rs` lines 179-187): tape all `Zero`, head at 50,
state `A`, steps 0. -/
def tm_new : TuringMachine :=
  { tape := List.replicate 100 TapeSymbol.Zero
    head := 50
    state := State.A
    steps := 0 }

/-- `tm_step` (`ultimate.rs` lines 189-224).  A halted machine returns
unchanged.  Otherwise the code indexes `tape[head as usize]` with no bounds
check: the access panics (modelled as `none`) unless `0 ≤ head < 100`.
In bounds, the nested match applies the fixed transition table and
`steps` is incremented after the match. -/
def tm_step (tm : TuringMachine) : Option TuringMachine :=
  if tm.state = State.Halt then
    some tm
  else if 0 ≤ tm.head ∧ tm.head < 100 then
    let idx := tm.head.toNat
    let current := tm.tape.getD idx TapeSymbol.Zero
    match tm.state, current with
    | State.A, TapeSymbol.Zero =>
        some { tm with tape := tm.tape.set idx TapeSymbol.One
                       head := tm.head + 1
                       state := State.B
                       steps := tm.steps + 1 }
    | State.A, TapeSymbol.One =>
        some { tm with tape := tm.tape.set idx TapeSymbol.Zero
                       head := tm.head - 1
                       state := State.B
                       steps := tm.steps + 1 }
    | State.B, TapeSymbol.Zero =>
        some { tm with tape := tm.tape.set idx TapeSymbol.One
                       head := tm.head - 1
                       state := State.A
                       steps := tm.steps + 1 }
    | State.B, TapeSymbol.One =>
        some { tm with tape := tm.tape.set idx TapeSymbol.One
                       head := tm.head + 1
                       state := State.Halt
                       steps := tm.steps + 1 }
    | State.Halt, _ =>
        -- dead arm: mirrors the Rust `_ => {}` fallthrough (unreachable,
        -- the halted case returned above) followed by `steps += 1`
        some { tm with steps := tm.steps + 1 }
  else
    none

/-- Loop body of `tm_run` (`ultimate.rs` lines 229-239): the counter `i`
runs from 0 while `i < max_steps`, breaking as soon as the machine has
halted, otherwise stepping.  `fuel` is the number of remaining iterations. -/
def runAux : TuringMachine → Nat → Option TuringMachine
  | tm, 0 => some tm
  | tm, fuel + 1 =>
      if tm.state = State.Halt then
        some tm
      else
        match tm_step tm with
        | none => none
        | some tm2 => runAux tm2 fuel

/-- `tm_run` (`ultimate.rs` lines 226-242): runs the loop for at most
`max_steps` iterations (`Int.toNat` gives 0 iterations for a non-positive
budget, matching `while i < max_steps` from `i = 0`), then returns the
machine's cumulative `steps` counter together with the final machine. -/
def tm_run (tm : TuringMachine) (max_steps : Int) : Option (TuringMachine × Int) :=
  (runAux tm max_steps.toNat).map (fun t => (t, t.steps))

/-- Iterated single-stepping from the freshly constructed machine:
`stepN n` is the machine after `n` calls of `tm_step` on `tm_new`
(`none` once any call has performed an out-of-bounds access). -/
def stepN : Nat → Option TuringMachine
  | 0 => some tm_new
  | n + 1 => (stepN n).bind tm_step

/-- Decidable in-bounds check on the head of an optional machine:
true iff the machine exists (no panic so far) and its head lies in
`[48, 51]`, hence in `[0, 100)`. -/
def headOk : Option TuringMachine → Bool
  | none => false
  | some t => decide (48 ≤ t.head) && decide (t.head ≤ 51) &&
      decide (0 ≤ t.head) && decide (t.head < 100)

/-- Rust struct `Stack` (`ultimate.rs` lines 106-110): 256 `i32` slots and
a `top` index counting the occupied slots. -/
structure Stack where
  data : List Int
  top : Int
deriving DecidableEq, Repr

/-- `stack_new` (`ultimate.rs` lines 112-117): 256 zeroed slots, `top = 0`. -/
def stack_new : Stack :=
  { data := List.replicate 256 0, top := 0 }

/-- `stack_push` (`ultimate.rs` lines 119-124): if `top < 256` store the
value at index `top` and increment `top`; otherwise a silent no-op. -/
def stack_push (s : Stack) (v : Int) : Stack :=
  if s.top < 256 then
    { data := s.data.set s.top.toNat v, top := s.top + 1 }
  else
    s

/-- `stack_pop` (`ultimate.rs` lines 126-132): if `top > 0` decrement
`top` and return the value at the new `top`; otherwise return the
sentinel 0 and leave the stack unchanged. -/
def stack_pop (s : Stack) : Int × Stack :=
  if 0 < s.top then
    (s.data.getD (s.top - 1).toNat 0, { s with top := s.top - 1 })
  else
    (0, s)

/-- `stack_is_empty` (`ultimate.rs` lines 134-136). -/
def stack_is_empty (s : Stack) : Bool :=
  s.top == 0

/-- Pushing a list of values in order (left to right). -/
def pushList (s : Stack) (vs : List Int) : Stack :=
  vs.foldl stack_push s

/-- Popping `n` times, collecting the returned values in order. -/
def popN : Nat → Stack → List Int × Stack
  | 0, s => ([], s)
  | n + 1, s =>
      let p := stack_pop s
      let q := popN n p.2
      (p.1 :: q.1, q.2)

/-- The stack representation invariant: 256 slots and `0 ≤ top ≤ 256`
(`top` counts the occupied slots, as the spec's data model states). -/
def StackInv (s : Stack) : Prop :=
  s.data.length = 256 ∧ 0 ≤ s.top ∧ s.top ≤ 256

instance (s : Stack) : Decidable (StackInv s) := by
  unfold StackInv; infer_instance

/-- The abstract LIFO contents of a stack: the occupied prefix of `data`,
most recently pushed value first. -/
def absStack (s : Stack) : List Int :=
  (s.data.take s.top.toNat).reverse

/-- The machine reached by six steps from `tm_new`: the trace writes `One`
at 50, 51, 48 and 49, erases 50 again, and halts with the head back at 50. -/
def tmFinal : TuringMachine :=
  { tape := ((((List.replicate 100 TapeSymbol.Zero).set 48 TapeSymbol.One).set 49
        TapeSymbol.One).set 51 TapeSymbol.One)
    head := 50
    state := State.Halt
    steps := 6 }

/-- A machine one cell from the right tape edge in state `A` over `Zero`:
the table row (A, Zero) moves the head to 100, outside `[0, 100)`. -/
def tmEdge : TuringMachine :=
  { tape := List.replicate 100 TapeSymbol.Zero
    head := 99
    state := State.A
    steps := 0 }

/-- The transition table exactly as the specification prints it:
`(state, symbol) ↦ (symbol to write, head delta, next state)`.
The `Halt` rows are never consulted (no transition is defined out of
`Halt`); they return the read symbol with no movement. -/
def specTable : State → TapeSymbol → TapeSymbol × Int × State
  | State.A, TapeSymbol.Zero => (TapeSymbol.One, 1, State.B)
  | State.A, TapeSymbol.One => (TapeSymbol.Zero, -1, State.B)
  | State.B, TapeSymbol.Zero => (TapeSymbol.One, -1, State.A)
  | State.B, TapeSymbol.One => (TapeSymbol.One, 1, State.Halt)
  | State.Halt, sym => (sym, 0, State.Halt)

/-- 257 concrete values 1, 2, ..., 257 for the saturation scenario. -/
def vals257 : List Int :=
  (List.range 257).map (fun i => (i : Int) + 1)

section ListLemmas

variable {α : Type}

lemma take_set_succ : ∀ (l : List α) (n : Nat) (a : α), n < l.length →
    (l.set n a).take (n + 1) = l.take n ++ [a] := by
  intro l
  induction l with
  | nil => intro n a h; simp at h
  | cons x t ih =>
    intro n a h
    cases n with
    | zero => simp
    | succ n =>
      simp only [List.set, List.take]
      rw [ih n a (by simpa using Nat.lt_of_succ_lt_succ h)]
      simp

lemma take_getD_succ : ∀ (l : List α) (n : Nat) (d : α), n < l.length →
    l.take (n + 1) = l.take n ++ [l.getD n d] := by
  intro l
  induction l with
  | nil => intro n d h; simp at h
  | cons x t ih =>
    intro n d h
    cases n with
    | zero => simp
    | succ n =>
      simp only [List.take, List.getD_cons_succ]
      rw [ih n d (by simpa using Nat.lt_of_succ_lt_succ h)]
      simp

end ListLemmas

/-- A push below capacity preserves the invariant, increments `top`, and
prepends the value to the abstract LIFO contents. -/
lemma stack_push_spec (s : Stack) (v : Int) (h : StackInv s) (htop : s.top < 256) :
    StackInv (stack_push s v) ∧ (stack_push s v).top = s.top + 1 ∧
      absStack (stack_push s v) = v :: absStack s := by
  obtain ⟨hlen, h0, h256⟩ := h
  have hidx : s.top.toNat < s.data.length := by omega
  unfold stack_push
  rw [if_pos htop]
  refine ⟨⟨by simp [hlen], show (0 : Int) ≤ s.top + 1 by omega,
    show s.top + 1 ≤ 256 by omega⟩, rfl, ?_⟩
  unfold absStack
  simp only
  have h1 : (s.top + 1).toNat = s.top.toNat + 1 := by omega
  rw [h1, take_set_succ s.data s.top.toNat v hidx]
  simp

/-- A pop from a nonempty stack preserves the invariant, decrements `top`,
and splits off the head of the abstract LIFO contents. -/
lemma stack_pop_spec (s : Stack) (h : StackInv s) (htop : 0 < s.top) :
    StackInv (stack_pop s).2 ∧ (stack_pop s).2.top = s.top - 1 ∧
      absStack s = (stack_pop s).1 :: absStack (stack_pop s).2 := by
  obtain ⟨hlen, h0, h256⟩ := h
  have hidx : (s.top - 1).toNat < s.data.length := by omega
  unfold stack_pop
  rw [if_pos htop]
  refine ⟨⟨hlen, show (0 : Int) ≤ s.top - 1 by omega,
    show s.top - 1 ≤ 256 by omega⟩, rfl, ?_⟩
  unfold absStack
  simp only
  have h1 : s.top.toNat = (s.top - 1).toNat + 1 := by omega
  rw [h1, take_getD_succ s.data ((s.top - 1).toNat) 0 hidx]
  simp

/-- Pushing a whole list that fits below capacity: invariant preserved,
`top` grows by the list length, abstract contents gain the list reversed. -/
lemma pushList_spec : ∀ (vs : List Int) (s : Stack), StackInv s →
    s.top + vs.length ≤ 256 →
    StackInv (pushList s vs) ∧ (pushList s vs).top = s.top + vs.length ∧
      absStack (pushList s vs) = vs.reverse ++ absStack s := by
  intro vs
  induction vs with
  | nil =>
    intro s h _
    exact ⟨h, by simp [pushList], by simp [pushList]⟩
  | cons v vs ih =>
    intro s h hlen
    have htop : s.top < 256 := by
      simp only [List.length_cons] at hlen; omega
    obtain ⟨h1, h2, h3⟩ := stack_push_spec s v h htop
    have hlen2 : (stack_push s v).top + vs.length ≤ 256 := by
      rw [h2]; simp only [List.length_cons] at hlen; omega
    obtain ⟨g1, g2, g3⟩ := ih (stack_push s v) h1 hlen2
    have hfold : pushList s (v :: vs) = pushList (stack_push s v) vs := rfl
    refine ⟨by rw [hfold]; exact g1, ?_, ?_⟩
    · rw [hfold, g2, h2]; simp only [List.length_cons]; omega
    · rw [hfold, g3, h3]; simp

/-- Popping exactly `top` times returns the abstract contents in order and
leaves an empty stack satisfying the invariant. -/
lemma popN_spec : ∀ (n : Nat) (s : Stack), StackInv s → s.top.toNat = n →
    (popN n s).1 = absStack s ∧ (popN n s).2.top = 0 ∧ StackInv (popN n s).2 := by
  intro n
  induction n with
  | zero =>
    intro s h htop
    have h0 : s.top = 0 := by obtain ⟨_, ha, _⟩ := h; omega
    refine ⟨?_, by simp [popN, h0], h⟩
    simp [popN, absStack, h0]
  | succ n ih =>
    intro n_s h htop
    have htop' : 0 < n_s.top := by obtain ⟨_, ha, _⟩ := h; omega
    obtain ⟨g1, g2, g3⟩ := stack_pop_spec n_s h htop'
    have hn : (stack_pop n_s).2.top.toNat = n := by
      rw [g2]; obtain ⟨_, ha, _⟩ := h; omega
    obtain ⟨i1, i2, i3⟩ := ih (stack_pop n_s).2 g1 hn
    have hfst : (popN (n + 1) n_s).1 = (stack_pop n_s).1 :: (popN n (stack_pop n_s).2).1 := rfl
    have hsnd : (popN (n + 1) n_s).2 = (popN n (stack_pop n_s).2).2 := rfl
    refine ⟨?_, by rw [hsnd]; exact i2, by rw [hsnd]; exact i3⟩
    rw [hfst, i1]
    exact g3.symm

/-- C7: pushing `v1..vn` (0 < n ≤ 256) onto a fresh stack and popping `n`
times returns `vn, ..., v1` and leaves the stack empty. -/
theorem stack_lifo_law (vs : List Int) (h1 : 0 < vs.length) (h2 : vs.length ≤ 256) :
    (popN vs.length (pushList stack_new vs)).1 = vs.reverse ∧
      stack_is_empty (popN vs.length (pushList stack_new vs)).2 = true := by
  have hinv : StackInv stack_new := by decide
  have hfit : stack_new.top + (vs.length : Int) ≤ 256 := by
    show (0 : Int) + (vs.length : Int) ≤ 256; omega
  obtain ⟨g1, g2, g3⟩ := pushList_spec vs stack_new hinv hfit
  have htop : (pushList stack_new vs).top.toNat = vs.length := by
    rw [g2]; show ((0 : Int) + (vs.length : Int)).toNat = vs.length; omega
  obtain ⟨i1, i2, i3⟩ := popN_spec vs.length (pushList stack_new vs) g1 htop
  refine ⟨?_, ?_⟩
  · rw [i1, g3]
    show vs.reverse ++ absStack stack_new = vs.reverse
    simp [absStack, stack_new]
  · simp [stack_is_empty, i2]

/-- C7 witness: the driver's values 10, 20, 30 pop back as 30, 20, 10. -/
theorem stack_lifo_law_witness :
    (popN ([10, 20, 30] : List Int).length (pushList stack_new [10, 20, 30])).1 =
        ([10, 20, 30] : List Int).reverse ∧
      stack_is_empty (popN ([10, 20, 30] : List Int).length
        (pushList stack_new [10, 20, 30])).2 = true :=
  stack_lifo_law [10, 20, 30] (by decide) (by decide)

/-- Saturation behavior, shared: pushing 257 values then popping 256
times returns the first 256 values reversed; the 257th push is a no-op. -/
lemma saturation_core (vs : List Int) (h : vs.length = 257) :
    pushList stack_new vs = pushList stack_new (vs.take 256) ∧
      (popN 256 (pushList stack_new vs)).1 = (vs.take 256).reverse ∧
      stack_is_empty (popN 256 (pushList stack_new vs)).2 = true := by
  have hinv : StackInv stack_new := by decide
  have hlen1 : (vs.take 256).length = 256 := by simp [h]
  have hfit : stack_new.top + ((vs.take 256).length : Int) ≤ 256 := by
    rw [hlen1]; show (0 : Int) + (256 : Int) ≤ 256; omega
  obtain ⟨g1, g2, g3⟩ := pushList_spec (vs.take 256) stack_new hinv hfit
  have htop : (pushList stack_new (vs.take 256)).top = 256 := by
    rw [g2, hlen1]; show (0 : Int) + (256 : Int) = 256; omega
  have hsplit : pushList stack_new vs = pushList stack_new (vs.take 256) := by
    obtain ⟨a, ha⟩ : ∃ a, vs.drop 256 = [a] :=
      List.length_eq_one.mp (by simp [h])
    calc pushList stack_new vs
        = pushList stack_new (vs.take 256 ++ vs.drop 256) := by
          rw [List.take_append_drop]
      _ = pushList (pushList stack_new (vs.take 256)) (vs.drop 256) := by
          unfold pushList; rw [List.foldl_append]
      _ = stack_push (pushList stack_new (vs.take 256)) a := by rw [ha]; rfl
      _ = pushList stack_new (vs.take 256) := by
          unfold stack_push
          rw [if_neg]
          rw [htop]
          omega
  have htopN : (pushList stack_new vs).top.toNat = 256 := by
    rw [hsplit, htop]; rfl
  have ginv : StackInv (pushList stack_new vs) := by rw [hsplit]; exact g1
  obtain ⟨i1, i2, i3⟩ := popN_spec 256 (pushList stack_new vs) ginv htopN
  refine ⟨hsplit, ?_, ?_⟩
  · rw [i1, hsplit, g3]
    show (vs.take 256).reverse ++ absStack stack_new = (vs.take 256).reverse
    simp [absStack, stack_new]
  · simp [stack_is_empty, i2]

/-- C3 counterexample: pushing the 257 values 1..257 and popping 256 times
does not return the last 256 values pushed (2..257) in reverse order —
the first value the claim predicts is 257, but the pops start at 256. -/
theorem stack_saturation_not_last_values :
    (popN 256 (pushList stack_new vals257)).1 ≠ (vals257.drop 1).reverse := by
  have hcore := saturation_core vals257 (by decide)
  rw [hcore.2.1]
  intro hEq
  have h2 := congrArg List.getLast? hEq
  rw [List.getLast?_reverse, List.getLast?_reverse] at h2
  exact absurd h2 (by decide)

/-- C3 as amended: pushing 257 values then popping 256 times returns the
FIRST 256 values pushed in reverse order; the 257th push is a silent no-op
that leaves the stack unchanged, and the 256 pops leave the stack empty. -/
theorem stack_saturation_first_values (vs : List Int) (h : vs.length = 257) :
    pushList stack_new vs = pushList stack_new (vs.take 256) ∧
      (popN 256 (pushList stack_new vs)).1 = (vs.take 256).reverse ∧
      stack_is_empty (popN 256 (pushList stack_new vs)).2 = true :=
  saturation_core vs h

/-- C3 witness: the amended behavior at the concrete values 1..257. -/
theorem stack_saturation_first_values_witness :
    pushList stack_new vals257 = pushList stack_new (vals257.take 256) ∧
      (popN 256 (pushList stack_new vals257)).1 = (vals257.take 256).reverse ∧
      stack_is_empty (popN 256 (pushList stack_new vals257)).2 = true :=
  stack_saturation_first_values vals257 (by decide)

/-- C9: the invariant `0 ≤ top ≤ 256` (with 256 slots) holds for a fresh
stack, is preserved by every push and pop, and whenever push or pop reads
or writes a slot the index used lies inside `data`. -/
theorem stack_invariant_preserved (s : Stack) (v : Int) (h : StackInv s) :
    StackInv stack_new ∧ StackInv (stack_push s v) ∧ StackInv (stack_pop s).2 ∧
      (s.top < 256 → s.top.toNat < s.data.length) ∧
      (0 < s.top → (s.top - 1).toNat < s.data.length) := by
  obtain ⟨hlen, h0, h256⟩ := h
  refine ⟨by decide, ?_, ?_, by omega, by omega⟩
  · unfold stack_push
    by_cases htop : s.top < 256
    · rw [if_pos htop]
      exact ⟨by simp [hlen], show (0 : Int) ≤ s.top + 1 by omega,
        show s.top + 1 ≤ 256 by omega⟩
    · rw [if_neg htop]; exact ⟨hlen, h0, h256⟩
  · unfold stack_pop
    by_cases htop : 0 < s.top
    · rw [if_pos htop]
      exact ⟨hlen, show (0 : Int) ≤ s.top - 1 by omega,
        show s.top - 1 ≤ 256 by omega⟩
    · rw [if_neg htop]; exact ⟨hlen, h0, h256⟩

/-- C9 witness: the invariant at the fresh stack and after one push. -/
theorem stack_invariant_preserved_witness :
    StackInv stack_new ∧ StackInv (stack_push stack_new 7) :=
  ⟨(stack_invariant_preserved stack_new 7 (by decide)).1,
    (stack_invariant_preserved stack_new 7 (by decide)).2.1⟩

/-- C10: popping a fresh stack returns the sentinel 0, leaves the stack
unchanged, and the stack is still empty. -/
theorem stack_pop_empty_sentinel :
    stack_pop stack_new = (0, stack_new) ∧
      stack_is_empty (stack_pop stack_new).2 = true := by
  decide

/-- Characterization of a non-halted, in-bounds step: `tm_step` succeeds
and performs exactly the write / move / state change of the table row for
`(state, symbol under head)`, incrementing `steps` by 1. -/
lemma tm_step_char (tm : TuringMachine) (h1 : tm.state ≠ State.Halt)
    (h2 : 0 ≤ tm.head) (h3 : tm.head < 100) :
    tm_step tm = some
      { tape := tm.tape.set tm.head.toNat
          (specTable tm.state (tm.tape.getD tm.head.toNat TapeSymbol.Zero)).1
        head := tm.head +
          (specTable tm.state (tm.tape.getD tm.head.toNat TapeSymbol.Zero)).2.1
        state := (specTable tm.state (tm.tape.getD tm.head.toNat TapeSymbol.Zero)).2.2
        steps := tm.steps + 1 } := by
  simp only [tm_step]
  rw [if_neg h1, if_pos ⟨h2, h3⟩]
  cases hs : tm.state with
  | Halt => exact absurd hs h1
  | A =>
    cases hc : tm.tape.getD tm.head.toNat TapeSymbol.Zero <;> rfl
  | B =>
    cases hc : tm.tape.getD tm.head.toNat TapeSymbol.Zero <;> rfl

/-- A successful step of a non-halted machine adds exactly 1 to `steps`. -/
lemma tm_step_steps (tm t : TuringMachine) (h1 : tm.state ≠ State.Halt)
    (hs : tm_step tm = some t) : t.steps = tm.steps + 1 := by
  by_cases hb : 0 ≤ tm.head ∧ tm.head < 100
  · rw [tm_step_char tm h1 hb.1 hb.2] at hs
    cases Option.some.inj hs
    rfl
  · unfold tm_step at hs
    rw [if_neg h1, if_neg hb] at hs
    exact Option.noConfusion hs

/-- A halted machine passes through the run loop unchanged. -/
lemma runAux_halt : ∀ (fuel : Nat) (tm : TuringMachine),
    tm.state = State.Halt → runAux tm fuel = some tm := by
  intro fuel
  induction fuel with
  | zero => intro tm _; rfl
  | succ fuel _ =>
    intro tm h
    show runAux tm (fuel + 1) = some tm
    unfold runAux
    rw [if_pos h]

/-- Loop invariant of `tm_run`: a successful run never decreases `steps`,
applies at most `fuel` transitions, and stops only at `Halt` or with the
budget exhausted (then exactly `fuel` transitions were applied). -/
lemma runAux_spec : ∀ (fuel : Nat) (tm t : TuringMachine),
    runAux tm fuel = some t →
    tm.steps ≤ t.steps ∧ t.steps ≤ tm.steps + fuel ∧
      (t.state = State.Halt ∨ t.steps = tm.steps + fuel) := by
  intro fuel
  induction fuel with
  | zero =>
    intro tm t h
    cases Option.some.inj h
    exact ⟨le_refl _, by omega, Or.inr (by omega)⟩
  | succ fuel ih =>
    intro tm t h
    unfold runAux at h
    by_cases hh : tm.state = State.Halt
    · rw [if_pos hh] at h
      cases Option.some.inj h
      exact ⟨le_refl _, by omega, Or.inl hh⟩
    · rw [if_neg hh] at h
      cases hstep : tm_step tm with
      | none => rw [hstep] at h; exact Option.noConfusion h
      | some tm2 =>
        rw [hstep] at h
        obtain ⟨i1, i2, i3⟩ := ih tm2 t h
        have h2 : tm2.steps = tm.steps + 1 := tm_step_steps tm tm2 hh hstep
        refine ⟨by omega, by omega, ?_⟩
        rcases i3 with hl | hr
        · exact Or.inl hl
        · exact Or.inr (by omega)

/-- C1 counterexample: from the fresh machine, `run` with budget 100 does
not return 4 transitions. -/
theorem tm_run_fresh_not_four :
    (tm_run tm_new 100).map Prod.snd ≠ some 4 := by
  decide

/-- C1 as amended: from the fresh machine, `run` with budget 100 reaches
the `Halt` state and returns exactly 6 as the number of transitions. -/
theorem tm_run_fresh_halts_in_six :
    tm_run tm_new 100 = some (tmFinal, 6) ∧ tmFinal.state = State.Halt := by
  exact ⟨by decide, rfl⟩

/-- C2 (code bug witness): on a machine in state `A` over `Zero` at head
99, the table row moves the head to 100, outside `[0, 100)`.  The code
applies the transition anyway — no error is signalled, the machine is
mutated, the head ends out of range — and only the following step hits
the out-of-bounds tape access (a panic, not a recoverable result). -/
theorem tm_step_edge_out_of_bounds :
    (tm_step tmEdge).map (fun t => (t.head, t.state, t.steps)) =
        some (100, State.B, 1) ∧
      tm_step tmEdge ≠ some tmEdge ∧
      (tm_step tmEdge).bind tm_step = none := by
  refine ⟨by decide, by decide, by decide⟩

/-- C4: on every non-halted machine with head inside the 100-cell tape,
`tm_step` reads `tape[head]`, writes, moves and changes state exactly as
the 4-row transition table dictates, and increments `steps` by exactly 1. -/
theorem tm_step_follows_transition_table (tm : TuringMachine)
    (h1 : tm.state ≠ State.Halt) (h2 : 0 ≤ tm.head) (h3 : tm.head < 100)
    (_h4 : tm.tape.length = 100) :
    tm_step tm = some
      { tape := tm.tape.set tm.head.toNat
          (specTable tm.state (tm.tape.getD tm.head.toNat TapeSymbol.Zero)).1
        head := tm.head +
          (specTable tm.state (tm.tape.getD tm.head.toNat TapeSymbol.Zero)).2.1
        state := (specTable tm.state (tm.tape.getD tm.head.toNat TapeSymbol.Zero)).2.2
        steps := tm.steps + 1 } :=
  tm_step_char tm h1 h2 h3

/-- C4 witness: the characterization applied to the fresh machine. -/
theorem tm_step_follows_transition_table_witness :
    tm_step tm_new = some
      { tape := tm_new.tape.set tm_new.head.toNat
          (specTable tm_new.state
            (tm_new.tape.getD tm_new.head.toNat TapeSymbol.Zero)).1
        head := tm_new.head +
          (specTable tm_new.state
            (tm_new.tape.getD tm_new.head.toNat TapeSymbol.Zero)).2.1
        state := (specTable tm_new.state
          (tm_new.tape.getD tm_new.head.toNat TapeSymbol.Zero)).2.2
        steps := tm_new.steps + 1 } :=
  tm_step_follows_transition_table tm_new (by decide) (by decide) (by decide)
    (by decide)

/-- C5: stepping a halted machine is a no-op with no error, and running a
halted machine with any budget applies no transition and returns the same
cumulative `steps` value. -/
theorem tm_halted_step_run_noop (tm : TuringMachine)
    (h : tm.state = State.Halt) :
    tm_step tm = some tm ∧
      ∀ budget : Int, tm_run tm budget = some (tm, tm.steps) := by
  constructor
  · unfold tm_step; rw [if_pos h]
  · intro budget
    unfold tm_run
    rw [runAux_halt budget.toNat tm h]
    rfl

/-- C5 witness: the halted machine reached from `tm_new` at budget 7. -/
theorem tm_halted_step_run_noop_witness :
    tm_step tmFinal = some tmFinal ∧
      tm_run tmFinal 7 = some (tmFinal, tmFinal.steps) :=
  ⟨(tm_halted_step_run_noop tmFinal rfl).1,
    (tm_halted_step_run_noop tmFinal rfl).2 7⟩

/-- C6: a successful `run` returns the machine's cumulative `steps`
counter; it applies at most `max_steps` transitions in this call and stops
only because the machine halted or the budget was spent exactly; and a run
with budget 0 applies no transition and returns `steps` unchanged. -/
theorem tm_run_budget_cumulative (tm : TuringMachine) (max_steps : Int)
    (t : TuringMachine) (n : Int) (h : tm_run tm max_steps = some (t, n)) :
    n = t.steps ∧ tm.steps ≤ t.steps ∧
      t.steps ≤ tm.steps + max_steps.toNat ∧
      (t.state = State.Halt ∨ t.steps = tm.steps + max_steps.toNat) ∧
      tm_run tm 0 = some (tm, tm.steps) := by
  unfold tm_run at h
  cases hr : runAux tm max_steps.toNat with
  | none => rw [hr] at h; exact Option.noConfusion h
  | some t2 =>
    rw [hr] at h
    have hpair := Option.some.inj h
    have ht : t2 = t := congrArg Prod.fst hpair
    have hn : t2.steps = n := congrArg Prod.snd hpair
    subst ht
    obtain ⟨i1, i2, i3⟩ := runAux_spec max_steps.toNat tm t2 hr
    exact ⟨hn.symm, i1, i2, i3, rfl⟩

/-- C6 witness: the halted machine with budget 3. -/
theorem tm_run_budget_cumulative_witness :
    (6 : Int) = tmFinal.steps ∧ tmFinal.steps ≤ tmFinal.steps ∧
      tmFinal.steps ≤ tmFinal.steps + (3 : Int).toNat ∧
      (tmFinal.state = State.Halt ∨
        tmFinal.steps = tmFinal.steps + (3 : Int).toNat) ∧
      tm_run tmFinal 0 = some (tmFinal, tmFinal.steps) :=
  tm_run_budget_cumulative tmFinal 3 tmFinal 6 (by decide)

/-- `stepN` unfolds one step at a time. -/
lemma stepN_succ (n : Nat) : stepN (n + 1) = (stepN n).bind tm_step := rfl

/-- C8: after any number of `tm_step` applications starting from `tm_new`,
no out-of-bounds tape access has occurred (the machine is still `some`)
and the head lies in `[48, 51]`, hence in `[0, 100)`, before every tape
read and write. -/
theorem tm_head_always_in_bounds (n : Nat) : headOk (stepN n) = true := by
  have h6 : stepN 6 = some tmFinal := by decide
  have hstep : tm_step tmFinal = some tmFinal := by decide
  have stable : ∀ k, stepN (6 + k) = some tmFinal := by
    intro k
    induction k with
    | zero => exact h6
    | succ k ih =>
      show stepN ((6 + k) + 1) = some tmFinal
      rw [stepN_succ, ih]
      exact hstep
  rcases Nat.lt_or_ge n 6 with h | h
  · interval_cases n <;> decide
  · obtain ⟨k, rfl⟩ : ∃ k, n = 6 + k := ⟨n - 6, by omega⟩
    rw [stable k]
    decide

/-- C8 witness: the bound evaluated after 9 steps. -/
theorem tm_head_always_in_bounds_witness : headOk (stepN 9) = true :=
  tm_head_always_in_bounds 9

end Conduit
